import Mathlib

/-!
Verification development for the `timberlea-upload-tool` repository
(an installer for the Ollama CLI, `src/main.go`, final program variant).

The development shallowly embeds the pure logic of the program:

* Go's `path/filepath` functions (`Clean`, `Join`, `Base`, `Dir`) for the
  Unix separator `/`, modeled on `List Char` exactly following the
  lexical algorithm of Go's `filepath.Clean`;
* the archive extraction routines `extractZip` and `extractTarGz`
  (`src/main.go` lines 596-740) as folds over lists of archive entries,
  recording the filesystem write actions they perform (filesystem
  operations themselves are modeled as always succeeding);
* the platform resolver `getPlatformConfig` (lines 308-340);
* the Unix PATH updater `updateUnixPath` / `pathAlreadyExists` /
  `appendToFile` / `fileExists` (lines 851-950) over a model filesystem
  holding the four candidate shell configuration files;
* the orchestrator `installOllama` / `downloadFile` / `main`
  (lines 375-499 and 962-981) as a function of the outcomes of its
  external effects (HTTP status, extraction outcome, PATH update outcome).
-/

/-! ## Splitting a character list at a separator character

`splitOnChar sep l` splits `l` at every occurrence of `sep`, keeping empty
segments, exactly as the segment decomposition underlying both Go's
`filepath.Clean` component walk and line splitting. -/

def splitOnChar (sep : Char) : List Char → List (List Char)
  | [] => [[]]
  | c :: rest =>
    if c = sep then [] :: splitOnChar sep rest
    else
      match splitOnChar sep rest with
      | [] => [[c]]
      | h :: t => (c :: h) :: t

theorem splitOnChar_ne_nil (sep : Char) (l : List Char) : splitOnChar sep l ≠ [] := by
  induction l with
  | nil => simp [splitOnChar]
  | cons c rest ih =>
    simp only [splitOnChar]
    split
    · simp
    · split
      · simp
      · simp

theorem splitOnChar_cons_sep (sep : Char) (l : List Char) :
    splitOnChar sep (sep :: l) = [] :: splitOnChar sep l := by
  simp [splitOnChar]

theorem splitOnChar_cons_ne (sep c : Char) (l : List Char) (h : c ≠ sep) :
    splitOnChar sep (c :: l) =
      (c :: (splitOnChar sep l).headI) :: (splitOnChar sep l).tail := by
  simp only [splitOnChar, if_neg h]
  have hne : splitOnChar sep l ≠ [] := splitOnChar_ne_nil sep l
  match hl : splitOnChar sep l with
  | [] => exact absurd hl hne
  | h' :: t => simp [List.headI]

theorem splitOnChar_append (sep : Char) (a b : List Char) :
    splitOnChar sep (a ++ sep :: b) = splitOnChar sep a ++ splitOnChar sep b := by
  induction a with
  | nil => simp [splitOnChar]
  | cons c rest ih =>
    by_cases hc : c = sep
    · subst hc
      simp only [List.cons_append, splitOnChar_cons_sep, ih, List.cons_append]
    · rw [List.cons_append, splitOnChar_cons_ne sep c _ hc, splitOnChar_cons_ne sep c rest hc, ih]
      have hne : splitOnChar sep rest ≠ [] := splitOnChar_ne_nil sep rest
      match hl : splitOnChar sep rest with
      | [] => exact absurd hl hne
      | h' :: t => simp

theorem splitOnChar_sepFree (sep : Char) (l : List Char) (h : sep ∉ l) :
    splitOnChar sep l = [l] := by
  induction l with
  | nil => simp [splitOnChar]
  | cons c rest ih =>
    have hc : c ≠ sep := fun he => h (he ▸ List.mem_cons_self c rest)
    have hr : sep ∉ rest := fun hm => h (List.mem_cons_of_mem c hm)
    rw [splitOnChar_cons_ne sep c rest hc, ih hr]
    simp [List.headI]

theorem splitOnChar_mem_sepFree (sep : Char) (l : List Char) :
    ∀ x ∈ splitOnChar sep l, sep ∉ x := by
  induction l with
  | nil => simp [splitOnChar]
  | cons c rest ih =>
    by_cases hc : c = sep
    · subst hc
      rw [splitOnChar_cons_sep]
      intro x hx
      rcases List.mem_cons.mp hx with h | h
      · subst h; simp
      · exact ih x h
    · rw [splitOnChar_cons_ne sep c rest hc]
      intro x hx
      have hne : splitOnChar sep rest ≠ [] := splitOnChar_ne_nil sep rest
      match hl : splitOnChar sep rest with
      | [] => exact absurd hl hne
      | h' :: t =>
        rw [hl] at hx
        simp only [List.headI, List.tail_cons] at hx
        rcases List.mem_cons.mp hx with h | h
        · subst h
          intro hm
          rcases List.mem_cons.mp hm with h | h
          · exact hc h.symm
          · exact ih h' (by rw [hl]; exact List.mem_cons_self _ _) h
        · exact ih x (by rw [hl]; exact List.mem_cons_of_mem _ h)

theorem splitOnChar_getLast_sep (sep : Char) (l : List Char)
    (h : l.getLast? = some sep) :
    ∃ l', splitOnChar sep l = l' ++ [[]] := by
  have : ∃ init, l = init ++ [sep] := by
    rcases l.eq_nil_or_concat with rfl | ⟨init, a, rfl⟩
    · simp at h
    · refine ⟨init, ?_⟩
      rw [List.concat_eq_append, List.getLast?_append_cons] at h
      simp only [List.getLast?_singleton, Option.some.injEq] at h
      rw [h, List.concat_eq_append]
  rcases this with ⟨init, rfl⟩
  refine ⟨splitOnChar sep init, ?_⟩
  rw [splitOnChar_append sep init []]
  simp [splitOnChar]

/-! ## Joining components with a separator -/

def joinComps : List (List Char) → List Char
  | [] => []
  | [c] => c
  | c :: c' :: cs => c ++ '/' :: joinComps (c' :: cs)

theorem splitOnChar_joinComps (l : List (List Char)) (hne : l ≠ [])
    (hfree : ∀ x ∈ l, '/' ∉ x) :
    splitOnChar '/' (joinComps l) = l := by
  induction l with
  | nil => exact absurd rfl hne
  | cons c cs ih =>
    match cs with
    | [] =>
      simp only [joinComps]
      exact splitOnChar_sepFree '/' c (hfree c (List.mem_cons_self _ _))
    | c' :: cs' =>
      simp only [joinComps]
      rw [splitOnChar_append '/' c (joinComps (c' :: cs'))]
      rw [splitOnChar_sepFree '/' c (hfree c (List.mem_cons_self _ _))]
      rw [ih (by simp) (fun x hx => hfree x (List.mem_cons_of_mem c hx))]
      simp

/-! ## Go's `filepath.Clean` (Unix), component level

Go's `Clean` walks the slash-separated components of the path, skipping
empty components and `.`, resolving `..` against the output buffer
(backtracking when possible, keeping leading `..` segments for relative
paths, dropping `..` at the root of rooted paths).  `elimDots` is that
walk; the accumulator holds the output components in reverse order. -/

def ddComp : List Char := ['.', '.']

def elimDots (r : Bool) : List (List Char) → List (List Char) → List (List Char)
  | acc, [] => acc.reverse
  | acc, c :: cs =>
    if c = [] ∨ c = ['.'] then elimDots r acc cs
    else if c = ddComp then
      if acc = [] then (if r then elimDots r [] cs else elimDots r [ddComp] cs)
      else if r = false ∧ acc.headI = ddComp then elimDots r (ddComp :: acc) cs
      else elimDots r acc.tail cs
    else elimDots r (c :: acc) cs

theorem elimDots_nil (r : Bool) (acc : List (List Char)) :
    elimDots r acc [] = acc.reverse := rfl

theorem elimDots_empty (r : Bool) (acc cs : List (List Char)) :
    elimDots r acc ([] :: cs) = elimDots r acc cs := rfl

theorem elimDots_dot (r : Bool) (acc cs : List (List Char)) :
    elimDots r acc (['.'] :: cs) = elimDots r acc cs := rfl

theorem elimDots_dd_nilacc (r : Bool) (cs : List (List Char)) :
    elimDots r [] (ddComp :: cs) =
      if r then elimDots r [] cs else elimDots r [ddComp] cs := rfl

theorem elimDots_dd_push (rest cs : List (List Char)) :
    elimDots false (ddComp :: rest) (ddComp :: cs) =
      elimDots false (ddComp :: ddComp :: rest) cs := rfl

theorem elimDots_dd_pop_true (a : List Char) (rest cs : List (List Char)) :
    elimDots true (a :: rest) (ddComp :: cs) = elimDots true rest cs := rfl

theorem elimDots_dd_pop_ne (a : List Char) (rest cs : List (List Char))
    (h : a ≠ ddComp) :
    elimDots false (a :: rest) (ddComp :: cs) = elimDots false rest cs := by
  rw [elimDots]
  rw [if_neg (by decide), if_pos rfl, if_neg (List.cons_ne_nil a rest)]
  rw [if_neg (by
    intro hc
    exact h (by simpa using hc.2))]
  rfl

theorem elimDots_plain_cons (r : Bool) (acc : List (List Char)) (c : List Char)
    (cs : List (List Char)) (h1 : c ≠ []) (h2 : c ≠ ['.']) (h3 : c ≠ ddComp) :
    elimDots r acc (c :: cs) = elimDots r (c :: acc) cs := by
  rw [elimDots]
  rw [if_neg (by
    rintro (h | h)
    · exact h1 h
    · exact h2 h), if_neg h3]

/-- A component is `plain` when it is none of the components the `Clean`
walk treats specially: nonempty and neither `.` nor `..`. -/
def PlainComp (x : List Char) : Prop := x ≠ [] ∧ x ≠ ['.'] ∧ x ≠ ddComp

theorem elimDots_plain (r : Bool) (cs : List (List Char)) :
    ∀ acc, (∀ x ∈ cs, PlainComp x) → elimDots r acc cs = acc.reverse ++ cs := by
  induction cs with
  | nil => intro acc _; simp [elimDots_nil]
  | cons c cs' ih =>
    intro acc hp
    have hc : PlainComp c := hp c (List.mem_cons_self _ _)
    rw [elimDots_plain_cons r acc c cs' hc.1 hc.2.1 hc.2.2]
    rw [ih (c :: acc) (fun x hx => hp x (List.mem_cons_of_mem c hx))]
    simp

theorem elimDots_dds_plain (cs : List (List Char)) (dds : List (List Char)) :
    ∀ acc, (∀ x ∈ acc, x = ddComp) → (∀ x ∈ dds, x = ddComp) →
    (∀ x ∈ cs, PlainComp x) →
    elimDots false acc (dds ++ cs) = acc.reverse ++ dds ++ cs := by
  induction dds with
  | nil =>
    intro acc _ _ hcs
    simp only [List.nil_append]
    rw [elimDots_plain false cs acc hcs]
    simp
  | cons d dds' ih =>
    intro acc hacc hdds hcs
    have hd : d = ddComp := hdds d (List.mem_cons_self _ _)
    subst hd
    match acc with
    | [] =>
      rw [List.cons_append, elimDots_dd_nilacc false (dds' ++ cs), if_neg (by decide)]
      rw [ih [ddComp] (by intro x hx; simpa using hx)
          (fun x hx => hdds x (List.mem_cons_of_mem _ hx)) hcs]
      simp
    | a :: rest =>
      have ha : a = ddComp := hacc a (List.mem_cons_self _ _)
      subst ha
      rw [List.cons_append, elimDots_dd_push rest (dds' ++ cs)]
      rw [ih (ddComp :: ddComp :: rest)
          (by
            intro x hx
            rcases List.mem_cons.mp hx with h | h
            · exact h
            · exact hacc x h)
          (fun x hx => hdds x (List.mem_cons_of_mem _ hx)) hcs]
      simp

/-- Canonical shape of cleaned component lists: every component is
nonempty, slash-free and not `.`, and the `..` components form a leading
run which is empty for rooted paths. -/
def CanonComps (r : Bool) (l : List (List Char)) : Prop :=
  (∀ x ∈ l, x ≠ [] ∧ x ≠ ['.'] ∧ '/' ∉ x) ∧
  ∃ dds plain, l = dds ++ plain ∧ (∀ x ∈ dds, x = ddComp) ∧
    (∀ x ∈ plain, x ≠ ddComp) ∧ (r = true → dds = [])

/-- Invariant carried by the `elimDots` accumulator: read in reverse it is
canonical, i.e. it is (reversed plain components) followed by (reversed
leading `..` run). -/
def AccOk (r : Bool) (acc : List (List Char)) : Prop :=
  (∀ x ∈ acc, x ≠ [] ∧ x ≠ ['.'] ∧ '/' ∉ x) ∧
  ∃ pRev dRev, acc = pRev ++ dRev ∧ (∀ x ∈ pRev, x ≠ ddComp) ∧
    (∀ x ∈ dRev, x = ddComp) ∧ (r = true → dRev = [])

theorem accOk_reverse_canon (r : Bool) (acc : List (List Char)) (h : AccOk r acc) :
    CanonComps r acc.reverse := by
  obtain ⟨hgood, pRev, dRev, heq, hp, hd, hr⟩ := h
  constructor
  · intro x hx
    exact hgood x (List.mem_reverse.mp hx)
  · refine ⟨dRev.reverse, pRev.reverse, ?_, ?_, ?_, ?_⟩
    · rw [heq, List.reverse_append]
    · intro x hx; exact hd x (List.mem_reverse.mp hx)
    · intro x hx; exact hp x (List.mem_reverse.mp hx)
    · intro hrt; rw [hr hrt]; simp

theorem accOk_nil (r : Bool) : AccOk r [] :=
  ⟨by simp, [], [], by simp, by simp, by simp, by simp⟩

theorem elimDots_canon (r : Bool) (cs : List (List Char)) :
    ∀ acc, (∀ x ∈ cs, '/' ∉ x) → AccOk r acc →
    CanonComps r (elimDots r acc cs) := by
  induction cs with
  | nil =>
    intro acc _ hacc
    rw [elimDots_nil]
    exact accOk_reverse_canon r acc hacc
  | cons c cs' ih =>
    intro acc hfree hacc
    have hcfree : '/' ∉ c := hfree c (List.mem_cons_self _ _)
    have hrest : ∀ x ∈ cs', '/' ∉ x := fun x hx => hfree x (List.mem_cons_of_mem c hx)
    by_cases h1 : c = []
    · subst h1; rw [elimDots_empty]; exact ih acc hrest hacc
    · by_cases h2 : c = ['.']
      · subst h2; rw [elimDots_dot]; exact ih acc hrest hacc
      · by_cases h3 : c = ddComp
        · subst h3
          match acc with
          | [] =>
            rw [elimDots_dd_nilacc]
            cases r with
            | false =>
              rw [if_neg (by decide)]
              refine ih [ddComp] hrest ?_
              refine ⟨?_, [], [ddComp], by simp, by simp, by simp, by simp⟩
              intro x hx
              simp only [List.mem_singleton] at hx
              subst hx
              refine ⟨by decide, by decide, by decide⟩
            | true =>
              rw [if_pos rfl]
              exact ih [] hrest (accOk_nil true)
          | a :: rest =>
            obtain ⟨hgood, pRev, dRev, heq, hp, hd, hr⟩ := hacc
            by_cases h4 : r = false ∧ a = ddComp
            · obtain ⟨hr4, ha4⟩ := h4
              subst hr4; subst ha4
              rw [elimDots_dd_push]
              refine ih (ddComp :: ddComp :: rest) hrest ?_
              have hpnil : pRev = [] := by
                match pRev, heq with
                | [], _ => rfl
                | p :: ps, heq =>
                  exfalso
                  have hpa : p = ddComp := by
                    have := (List.cons.injEq _ _ _ _).mp heq.symm
                    exact this.1
                  exact hp p (List.mem_cons_self _ _) hpa
              rw [hpnil, List.nil_append] at heq
              refine ⟨?_, [], ddComp :: ddComp :: rest, by simp, by simp, ?_, ?_⟩
              · intro x hx
                rcases List.mem_cons.mp hx with h | h
                · subst h; exact ⟨by decide, by decide, by decide⟩
                · exact hgood x h
              · intro x hx
                rcases List.mem_cons.mp hx with h | h
                · exact h
                · exact hd x (heq ▸ h)
              · intro hrt
                exact absurd hrt (by simp)
            · have hpop : elimDots r (a :: rest) (ddComp :: cs') = elimDots r rest cs' := by
                cases r with
                | true => exact elimDots_dd_pop_true a rest cs'
                | false =>
                  refine elimDots_dd_pop_ne a rest cs' ?_
                  intro ha
                  exact h4 ⟨rfl, ha⟩
              rw [hpop]
              refine ih rest hrest ?_
              constructor
              · intro x hx; exact hgood x (List.mem_cons_of_mem a hx)
              · match pRev, heq with
                | [], heq =>
                  simp only [List.nil_append] at heq
                  refine ⟨[], rest, by simp, by simp, ?_, ?_⟩
                  · intro x hx
                    exact hd x (heq ▸ List.mem_cons_of_mem a hx)
                  · intro hrt
                    rw [hr hrt] at heq
                    simp at heq
                | p :: ps, heq =>
                  have hinj := (List.cons.injEq _ _ _ _).mp heq
                  refine ⟨ps, dRev, hinj.2, ?_, hd, hr⟩
                  intro x hx
                  exact hp x (List.mem_cons_of_mem p hx)
        · rw [elimDots_plain_cons r acc c cs' h1 h2 h3]
          obtain ⟨hgood, pRev, dRev, heq, hp, hd, hr⟩ := hacc
          refine ih (c :: acc) hrest ?_
          constructor
          · intro x hx
            rcases List.mem_cons.mp hx with h | h
            · subst h; exact ⟨h1, h2, hcfree⟩
            · exact hgood x h
          · refine ⟨c :: pRev, dRev, by rw [heq, List.cons_append], ?_, hd, hr⟩
            intro x hx
            rcases List.mem_cons.mp hx with h | h
            · subst h; exact h3
            · exact hp x h

/-! ## The `path/filepath` functions used by the program (Unix rules)

These model, on `String`, the Go functions the extraction code calls:
`filepath.Clean`, the two-argument `filepath.Join`, `filepath.Base`,
`filepath.Dir`, `strings.HasPrefix`, and `strings.HasSuffix`. -/

/-- Whether the path begins with the separator (Go: `path[0] == '/'`;
false for the empty path). -/
def isRooted (s : String) : Bool := s.data.headI == '/'

/-- The resolved (cleaned) form of a path, as rootedness plus the list of
remaining components, following the component walk of Go's
`filepath.Clean`. -/
def cleanParts (s : String) : Bool × List (List Char) :=
  (isRooted s, elimDots (isRooted s) [] (splitOnChar '/' s.data))

/-- Print a cleaned path back to a string, as Go's `Clean` does: rooted
paths get a leading `/`; an empty relative result is `.`. -/
def render : Bool × List (List Char) → String
  | (true, l) => String.mk ('/' :: joinComps l)
  | (false, l) => if l = [] then "." else String.mk (joinComps l)

/-- Go's `filepath.Clean` (Unix separator). -/
def goClean (s : String) : String := render (cleanParts s)

/-- The raw slash-joined destination `dir/name`, before cleaning. -/
def rawDest (dir name : String) : String :=
  String.mk (dir.data ++ '/' :: name.data)

/-- Go's two-argument `filepath.Join`: empty elements are dropped, the
rest joined with `/` and cleaned; all-empty input gives `""`. -/
def goJoin2 (a b : String) : String :=
  if a.data = [] then (if b.data = [] then "" else goClean b)
  else goClean (rawDest a b)

/-- Go's `strings.HasPrefix s pre`. -/
def goHasPrefix (s pre : String) : Bool := pre.data.isPrefixOf s.data

/-- Go's `strings.HasSuffix s suf`. -/
def goHasSuffix (s suf : String) : Bool := suf.data.isSuffixOf s.data

/-- Go's `filepath.Base` (Unix): empty path gives `.`; otherwise strip
trailing slashes, take everything after the final slash, and if nothing
remains the path was all slashes and the result is `/`. -/
def goBase (s : String) : String :=
  if s.data = [] then "."
  else
    let r := s.data.reverse.dropWhile (fun c => c == '/')
    let b := r.takeWhile (fun c => c != '/')
    if b = [] then "/" else String.mk b.reverse

/-- Go's `filepath.Dir` (Unix): everything up to and including the final
slash, cleaned. -/
def goDir (s : String) : String :=
  goClean (String.mk ((s.data.reverse.dropWhile (fun c => c != '/')).reverse))

/-- The path `p`, once resolved as `filepath.Clean` resolves paths
(eliminating `.` and `..` lexically), lies strictly inside the resolved
directory `dir`: same rootedness, and `dir`'s resolved components are a
proper prefix of `p`'s. -/
def StrictlyInside (dir p : String) : Prop :=
  (cleanParts dir).1 = (cleanParts p).1 ∧
  (cleanParts dir).2 <+: (cleanParts p).2 ∧
  (cleanParts dir).2 ≠ (cleanParts p).2

instance (dir p : String) : Decidable (StrictlyInside dir p) := by
  unfold StrictlyInside
  exact inferInstance

theorem joinComps_cons_decomp (c : List Char) (ls : List (List Char)) :
    joinComps (c :: ls) = c ++ (if ls = [] then [] else '/' :: joinComps ls) := by
  match ls with
  | [] => simp [joinComps]
  | l' :: ls' => simp [joinComps]

theorem cleanParts_canonical (s : String) :
    CanonComps (cleanParts s).1 (cleanParts s).2 := by
  show CanonComps (isRooted s) (elimDots (isRooted s) [] (splitOnChar '/' s.data))
  exact elimDots_canon (isRooted s) (splitOnChar '/' s.data) []
    (splitOnChar_mem_sepFree '/' s.data) (accOk_nil _)

theorem cleanParts_render (r : Bool) (l : List (List Char)) (h : CanonComps r l) :
    cleanParts (render (r, l)) = (r, l) := by
  obtain ⟨hgood, dds, plain, heq, hdds, hplain, hr⟩ := h
  have hfree : ∀ x ∈ l, '/' ∉ x := fun x hx => (hgood x hx).2.2
  cases r with
  | true =>
    have hplainAll : ∀ x ∈ l, PlainComp x := by
      intro x hx
      refine ⟨(hgood x hx).1, (hgood x hx).2.1, ?_⟩
      rw [heq, hr rfl, List.nil_append] at hx
      exact hplain x hx
    show ((isRooted (render (true, l))),
      elimDots _ [] (splitOnChar '/' (render (true, l)).data)) = (true, l)
    have hdata : (render (true, l)).data = '/' :: joinComps l := rfl
    have hroot : isRooted (render (true, l)) = true := by
      simp [isRooted, hdata, List.headI]
    rw [hroot, hdata, splitOnChar_cons_sep, elimDots_empty]
    match l, hplainAll with
    | [], _ => simp [splitOnChar, elimDots_empty, elimDots_nil]
    | c :: ls, hplainAll =>
      rw [splitOnChar_joinComps (c :: ls) (by simp) hfree]
      rw [elimDots_plain true (c :: ls) [] hplainAll]
      simp
  | false =>
    match l, heq with
    | [], _ =>
      show ((isRooted (render (false, []))),
        elimDots _ [] (splitOnChar '/' (render (false, [])).data)) = (false, [])
      have hdata : (render (false, [])).data = ['.'] := rfl
      have hroot : isRooted (render (false, [])) = false := by
        simp [isRooted, hdata, List.headI]
      rw [hroot, hdata]
      rw [show splitOnChar '/' ['.'] = [['.']] from rfl]
      rw [elimDots_dot, elimDots_nil]
      simp
    | c :: ls, heq =>
      have hlne : c :: ls ≠ [] := by simp
      have hdata : (render (false, c :: ls)).data = joinComps (c :: ls) := by
        show (if (c :: ls : List (List Char)) = [] then ("." : String)
          else String.mk (joinComps (c :: ls))).data = joinComps (c :: ls)
        rw [if_neg hlne]
      have hchead : ∃ ch c', c = ch :: c' := by
        have := (hgood c (List.mem_cons_self _ _)).1
        match c, this with
        | ch :: c', _ => exact ⟨ch, c', rfl⟩
      obtain ⟨ch, c', rfl⟩ := hchead
      have hch : ch ≠ '/' := by
        intro hcontra
        exact (hgood _ (List.mem_cons_self _ _)).2.2 (hcontra ▸ List.mem_cons_self _ _)
      have hjoin : joinComps ((ch :: c') :: ls) =
          ch :: (c' ++ (if ls = [] then [] else '/' :: joinComps ls)) := by
        rw [joinComps_cons_decomp]
        simp
      have hroot : isRooted (render (false, (ch :: c') :: ls)) = false := by
        simp only [isRooted, hdata, hjoin, List.headI]
        simpa using hch
      show ((isRooted (render (false, (ch :: c') :: ls))),
        elimDots _ [] (splitOnChar '/' (render (false, (ch :: c') :: ls)).data))
          = (false, (ch :: c') :: ls)
      rw [hroot, hdata]
      rw [splitOnChar_joinComps ((ch :: c') :: ls) hlne hfree]
      have hdecomp : (ch :: c') :: ls = dds ++ plain := heq
      rw [hdecomp]
      rw [elimDots_dds_plain plain dds [] (by simp) hdds ?hplainComp]
      · simp
      case hplainComp =>
        intro x hx
        have hxl : x ∈ (ch :: c') :: ls := by rw [hdecomp]; exact List.mem_append_right _ hx
        exact ⟨(hgood x hxl).1, (hgood x hxl).2.1, hplain x hx⟩

theorem cleanParts_goClean (s : String) : cleanParts (goClean s) = cleanParts s := by
  have h := cleanParts_canonical s
  show cleanParts (render (cleanParts s)) = cleanParts s
  have hpair : cleanParts s = ((cleanParts s).1, (cleanParts s).2) := rfl
  rw [hpair]
  exact cleanParts_render _ _ h

/-! ## From the string-level prefix guard to component containment -/

theorem append_sep_prefix_eq (sep : Char) (a : List Char) :
    ∀ b x y : List Char, sep ∉ a → sep ∉ b →
    (a ++ sep :: x) <+: (b ++ sep :: y) → a = b ∧ x <+: y := by
  induction a with
  | nil =>
    intro b x y _ hb h
    match b with
    | [] =>
      simp only [List.nil_append] at h
      exact ⟨rfl, (List.cons_prefix_cons.mp h).2⟩
    | e :: b' =>
      exfalso
      simp only [List.nil_append, List.cons_append] at h
      have he := (List.cons_prefix_cons.mp h).1
      exact hb (he ▸ List.mem_cons_self e b')
  | cons f a' ih =>
    intro b x y ha hb h
    match b with
    | [] =>
      exfalso
      simp only [List.cons_append, List.nil_append] at h
      have hf := (List.cons_prefix_cons.mp h).1
      exact ha (hf ▸ List.mem_cons_self f a')
    | g :: b' =>
      simp only [List.cons_append] at h
      obtain ⟨hfg, hrest⟩ := List.cons_prefix_cons.mp h
      obtain ⟨hab, hxy⟩ := ih b' x y
        (fun hm => ha (List.mem_cons_of_mem f hm))
        (fun hm => hb (List.mem_cons_of_mem g hm)) hrest
      exact ⟨by rw [hfg, hab], hxy⟩

theorem joinComps_sep_strictPrefix (l₁ : List (List Char)) :
    ∀ l₂ : List (List Char),
    (∀ x ∈ l₁, x ≠ [] ∧ '/' ∉ x) → (∀ x ∈ l₂, x ≠ [] ∧ '/' ∉ x) →
    l₁ ≠ [] → (joinComps l₁ ++ ['/']) <+: joinComps l₂ →
    l₁ <+: l₂ ∧ l₁ ≠ l₂ := by
  induction l₁ with
  | nil => intro l₂ _ _ hne _; exact absurd rfl hne
  | cons c cs ih =>
    intro l₂ h1 h2 _ h
    match cs with
    | [] =>
      match l₂ with
      | [] =>
        exfalso
        have hnil : joinComps ([] : List (List Char)) = [] := rfl
        rw [hnil, List.prefix_nil] at h
        simp at h
      | [d] =>
        exfalso
        have hmem : '/' ∈ (d : List Char) := by
          refine (h.subset) ?_
          simp [joinComps]
        exact (h2 d (List.mem_cons_self _ _)).2 hmem
      | d :: d' :: ds' =>
        have hd : joinComps (d :: d' :: ds') = d ++ '/' :: joinComps (d' :: ds') := rfl
        rw [hd] at h
        have hc : joinComps [c] ++ ['/'] = c ++ '/' :: [] := by simp [joinComps]
        rw [hc] at h
        obtain ⟨hcd, _⟩ := append_sep_prefix_eq '/' c d [] (joinComps (d' :: ds'))
          (h1 c (List.mem_cons_self _ _)).2 (h2 d (List.mem_cons_self _ _)).2 h
        subst hcd
        constructor
        · exact List.cons_prefix_cons.mpr ⟨rfl, List.nil_prefix⟩
        · intro hcontra
          have := (List.cons.injEq _ _ _ _).mp hcontra
          simp at this
    | c' :: cs' =>
      match l₂ with
      | [] =>
        exfalso
        have hnil : joinComps ([] : List (List Char)) = [] := rfl
        rw [hnil, List.prefix_nil] at h
        simp at h
      | [d] =>
        exfalso
        have hmem : '/' ∈ (d : List Char) := by
          refine (h.subset) ?_
          have hjc : joinComps (c :: c' :: cs') = c ++ '/' :: joinComps (c' :: cs') := rfl
          rw [hjc]
          simp
        exact (h2 d (List.mem_cons_self _ _)).2 hmem
      | d :: d' :: ds' =>
        have hj1 : joinComps (c :: c' :: cs') ++ ['/'] =
            c ++ '/' :: (joinComps (c' :: cs') ++ ['/']) := by
          show (c ++ '/' :: joinComps (c' :: cs')) ++ ['/'] = _
          simp
        have hj2 : joinComps (d :: d' :: ds') = d ++ '/' :: joinComps (d' :: ds') := rfl
        rw [hj1, hj2] at h
        obtain ⟨hcd, hrest⟩ := append_sep_prefix_eq '/' c d
          (joinComps (c' :: cs') ++ ['/']) (joinComps (d' :: ds'))
          (h1 c (List.mem_cons_self _ _)).2 (h2 d (List.mem_cons_self _ _)).2 h
        subst hcd
        obtain ⟨hpre, hne'⟩ := ih (d' :: ds')
          (fun x hx => h1 x (List.mem_cons_of_mem c hx))
          (fun x hx => h2 x (List.mem_cons_of_mem c hx))
          (by simp) hrest
        constructor
        · exact List.cons_prefix_cons.mpr ⟨rfl, hpre⟩
        · intro hcontra
          exact hne' ((List.cons.injEq _ _ _ _).mp hcontra).2

theorem render_data_true (l : List (List Char)) :
    (render (true, l)).data = '/' :: joinComps l := rfl

theorem render_data_false_nil : (render (false, ([] : List (List Char)))).data = ['.'] := rfl

theorem render_data_false_cons (c : List Char) (ls : List (List Char)) :
    (render (false, c :: ls)).data = joinComps (c :: ls) := by
  show (if (c :: ls : List (List Char)) = [] then ("." : String)
    else String.mk (joinComps (c :: ls))).data = joinComps (c :: ls)
  rw [if_neg (by simp)]

theorem render_sep_strictPrefix (rt rs : Bool) (lt ls : List (List Char))
    (hct : CanonComps rt lt) (hcs : CanonComps rs ls)
    (h : ((render (rt, lt)).data ++ ['/']) <+: (render (rs, ls)).data) :
    rt = rs ∧ lt <+: ls ∧ lt ≠ ls := by
  have hgt := hct.1
  have hgs := hcs.1
  have hgt' : ∀ x ∈ lt, x ≠ [] ∧ '/' ∉ x := fun x hx => ⟨(hgt x hx).1, (hgt x hx).2.2⟩
  have hgs' : ∀ x ∈ ls, x ≠ [] ∧ '/' ∉ x := fun x hx => ⟨(hgs x hx).1, (hgs x hx).2.2⟩
  cases rt with
  | true =>
    cases rs with
    | true =>
      rw [render_data_true, render_data_true] at h
      rw [List.cons_append] at h
      have h' : joinComps lt ++ ['/'] <+: joinComps ls := (List.cons_prefix_cons.mp h).2
      match lt with
      | [] =>
        exfalso
        rw [show joinComps ([] : List (List Char)) = [] from rfl] at h'
        rw [List.nil_append] at h'
        match ls with
        | [] =>
          rw [show joinComps ([] : List (List Char)) = [] from rfl, List.prefix_nil] at h'
          simp at h'
        | d :: ds =>
          obtain ⟨hdne, hdfree⟩ := hgs' d (List.mem_cons_self _ _)
          match d, hdne with
          | ch :: d', _ =>
            rw [joinComps_cons_decomp, List.cons_append] at h'
            have := (List.cons_prefix_cons.mp h').1
            exact hdfree (this ▸ List.mem_cons_self ch d')
      | c :: cs =>
        exact ⟨rfl, joinComps_sep_strictPrefix (c :: cs) ls hgt' hgs' (by simp) h'⟩
    | false =>
      exfalso
      rw [render_data_true] at h
      rw [List.cons_append] at h
      match ls with
      | [] =>
        rw [render_data_false_nil] at h
        have := (List.cons_prefix_cons.mp h).1
        simp at this
      | d :: ds =>
        rw [render_data_false_cons] at h
        obtain ⟨hdne, hdfree⟩ := hgs' d (List.mem_cons_self _ _)
        match d, hdne with
        | ch :: d', _ =>
          rw [joinComps_cons_decomp, List.cons_append] at h
          have := (List.cons_prefix_cons.mp h).1
          exact hdfree (this ▸ List.mem_cons_self ch d')
  | false =>
    cases rs with
    | true =>
      exfalso
      rw [render_data_true] at h
      match lt with
      | [] =>
        rw [render_data_false_nil] at h
        have := (List.cons_prefix_cons.mp h).1
        simp at this
      | c :: cs =>
        rw [render_data_false_cons] at h
        obtain ⟨hcne, hcfree⟩ := hgt' c (List.mem_cons_self _ _)
        match c, hcne with
        | ch :: c', _ =>
          rw [joinComps_cons_decomp] at h
          rw [List.cons_append, List.cons_append] at h
          have := (List.cons_prefix_cons.mp h).1
          exact hcfree (this.symm ▸ List.mem_cons_self ch c')
    | false =>
      match lt with
      | [] =>
        exfalso
        rw [render_data_false_nil] at h
        match ls with
        | [] =>
          rw [render_data_false_nil] at h
          have h2 := (List.cons_prefix_cons.mp h).2
          rw [List.prefix_nil] at h2
          simp at h2
        | d :: ds =>
          rw [render_data_false_cons] at h
          obtain ⟨hdne, hddot, hdfree⟩ := hgs d (List.mem_cons_self _ _)
          match d, hdne with
          | ch :: d', _ =>
            rw [joinComps_cons_decomp] at h
            rw [show ((ch :: d') ++ (if ds = [] then [] else '/' :: joinComps ds))
              = ch :: (d' ++ (if ds = [] then [] else '/' :: joinComps ds)) from rfl] at h
            obtain ⟨hch, hrest⟩ := List.cons_prefix_cons.mp h
            match d' with
            | [] =>
              exact hddot (by rw [← hch])
            | ch2 :: d'' =>
              rw [List.cons_append] at hrest
              have hch2 := (List.cons_prefix_cons.mp hrest).1
              refine hdfree ?_
              rw [hch2]
              exact List.mem_cons_of_mem ch (List.mem_cons_self ch2 d'')
      | c :: cs =>
        rw [render_data_false_cons] at h
        match ls with
        | [] =>
          exfalso
          rw [render_data_false_nil] at h
          obtain ⟨hcne, hcfree⟩ := hgt' c (List.mem_cons_self _ _)
          match c, hcne with
          | ch :: c', _ =>
            rw [joinComps_cons_decomp] at h
            rw [List.cons_append, List.cons_append] at h
            have h2 := (List.cons_prefix_cons.mp h).2
            rw [List.prefix_nil] at h2
            simp at h2
        | d :: ds =>
          rw [render_data_false_cons] at h
          exact ⟨rfl, joinComps_sep_strictPrefix (c :: cs) (d :: ds) hgt' hgs' (by simp) h⟩

/-- Core safety bridge: if the extraction guard
`strings.HasPrefix(path, filepath.Clean(tempDir) + "/")` accepts the
joined destination of an entry, then that destination really resolves
strictly inside the target directory. -/
theorem guard_strictlyInside (t n : String) (ht : t.data ≠ [])
    (h : goHasPrefix (goJoin2 t n) (goClean t ++ "/") = true) :
    StrictlyInside t (goJoin2 t n) := by
  have hjoin : goJoin2 t n = goClean (rawDest t n) := by
    unfold goJoin2
    rw [if_neg ht]
  unfold goHasPrefix at h
  rw [List.isPrefixOf_iff_prefix] at h
  rw [hjoin] at h ⊢
  have hdata : (goClean t ++ "/").data = (goClean t).data ++ ['/'] := by
    rw [String.data_append]
  rw [hdata] at h
  have hct := cleanParts_canonical t
  have hcs := cleanParts_canonical (rawDest t n)
  have h1 : goClean t = render ((cleanParts t).1, (cleanParts t).2) := rfl
  have h2 : goClean (rawDest t n) =
      render ((cleanParts (rawDest t n)).1, (cleanParts (rawDest t n)).2) := rfl
  rw [h1, h2] at h
  obtain ⟨hrt, hpre, hne⟩ := render_sep_strictPrefix _ _ _ _ hct hcs h
  unfold StrictlyInside
  rw [cleanParts_goClean (rawDest t n)]
  exact ⟨hrt, hpre, hne⟩

/-! ## The archive extraction routines (`extractZip`, `extractTarGz`)

Each routine walks the archive's entries in order, joins each entry name
onto the target directory, skips entries failing the traversal guard,
materializes directories and regular files, and remembers the
destination path of the entry matching the binary rule (`binaryPath`,
initially the empty string as in Go).  Filesystem operations are modeled
as the list of write actions performed and are assumed to succeed. -/

/-- A filesystem write performed during extraction: directory creation
(`os.MkdirAll`) or writing a regular file's bytes. -/
inductive WAction where
  | mkdirAll (path : String)
  | writeFile (path : String)
deriving DecidableEq, Repr

/-- State threaded through an extraction pass. -/
structure ExtractSt where
  binaryPath : String
  actions : List WAction
deriving DecidableEq, Repr

/-- A zip archive entry: its stored name and whether its file info marks
it as a directory. -/
structure ZipEntry where
  name : String
  isDir : Bool
deriving DecidableEq, Repr

/-- Processing of one zip entry (`src/main.go` lines 605-648): join, the
traversal guard (skip on failure), directory creation for directory
entries, parent creation plus file write for file entries, and the
base-name binary check. -/
def zipStep (tempDir binaryName : String) (st : ExtractSt) (e : ZipEntry) : ExtractSt :=
  let path := goJoin2 tempDir e.name
  if goHasPrefix path (goClean tempDir ++ "/") = false then st
  else if e.isDir then { st with actions := st.actions ++ [WAction.mkdirAll path] }
  else
    let st' : ExtractSt :=
      { binaryPath := st.binaryPath,
        actions := st.actions ++ [WAction.mkdirAll (goDir path), WAction.writeFile path] }
    if goBase path = binaryName then { st' with binaryPath := path } else st'

/-- `extractZip` (lines 596-655): fold the per-entry step over the
archive, then fail when no entry matched. -/
def extractZip (archive : List ZipEntry) (tempDir binaryName : String) :
    ExtractSt × Except String String :=
  let st := archive.foldl (zipStep tempDir binaryName) ⟨"", []⟩
  (st,
    if st.binaryPath = "" then
      Except.error ("binary " ++ binaryName ++ " not found in zip archive")
    else Except.ok st.binaryPath)

/-- A tar entry's type flag as far as the switch in `extractTarGz`
distinguishes them: directory, regular file, or anything else (which the
switch ignores). -/
inductive TarType where
  | dir
  | reg
  | other
deriving DecidableEq, Repr

/-- A tar archive entry: its stored name and type flag. -/
structure TarEntry where
  name : String
  typeflag : TarType
deriving DecidableEq, Repr

/-- Processing of one tar entry (lines 694-732): join, the traversal
guard (skip on failure), then the type switch; only regular files are
checked against the binary rule, which for the tarball accepts a
`/bin/ollama` suffix or an `ollama` base name. -/
def tarStep (tempDir : String) (st : ExtractSt) (e : TarEntry) : ExtractSt :=
  let path := goJoin2 tempDir e.name
  if goHasPrefix path (goClean tempDir ++ "/") = false then st
  else
    match e.typeflag with
    | TarType.dir => { st with actions := st.actions ++ [WAction.mkdirAll path] }
    | TarType.reg =>
      let st' : ExtractSt :=
        { binaryPath := st.binaryPath,
          actions := st.actions ++ [WAction.mkdirAll (goDir path), WAction.writeFile path] }
      if goHasSuffix path "/bin/ollama" = true ∨ goBase path = "ollama" then
        { st' with binaryPath := path }
      else st'
    | TarType.other => st

/-- `extractTarGz` (lines 669-740): fold the per-entry step over the
archive, then fail when no entry matched.  The binary name `ollama` is
hardcoded exactly as in the source. -/
def extractTarGz (archive : List TarEntry) (tempDir : String) :
    ExtractSt × Except String String :=
  let st := archive.foldl (tarStep tempDir) ⟨"", []⟩
  (st,
    if st.binaryPath = "" then
      Except.error "ollama binary not found in tar.gz archive"
    else Except.ok st.binaryPath)

/-- A zip entry is recorded as the binary exactly when it passes the
traversal guard, is not a directory, and its destination's base name is
the expected binary name. -/
def zipRecords (tempDir binaryName : String) (e : ZipEntry) : Prop :=
  goHasPrefix (goJoin2 tempDir e.name) (goClean tempDir ++ "/") = true ∧
  e.isDir = false ∧ goBase (goJoin2 tempDir e.name) = binaryName

instance (tempDir binaryName : String) (e : ZipEntry) :
    Decidable (zipRecords tempDir binaryName e) := by
  unfold zipRecords
  exact inferInstance

/-- A tar entry is recorded as the binary exactly when it passes the
traversal guard, is a regular file, and its destination ends in
`/bin/ollama` or has base name `ollama`. -/
def tarRecords (tempDir : String) (e : TarEntry) : Prop :=
  goHasPrefix (goJoin2 tempDir e.name) (goClean tempDir ++ "/") = true ∧
  e.typeflag = TarType.reg ∧
  (goHasSuffix (goJoin2 tempDir e.name) "/bin/ollama" = true ∨
    goBase (goJoin2 tempDir e.name) = "ollama")

instance (tempDir : String) (e : TarEntry) : Decidable (tarRecords tempDir e) := by
  unfold tarRecords
  exact inferInstance

/-- The destination paths of the entries a zip extraction records, in
archive order. -/
def zipMatchedPaths (tempDir binaryName : String) (archive : List ZipEntry) :
    List String :=
  archive.filterMap fun e =>
    if zipRecords tempDir binaryName e then some (goJoin2 tempDir e.name) else none

/-- The destination paths of the entries a tar.gz extraction records, in
archive order. -/
def tarMatchedPaths (tempDir : String) (archive : List TarEntry) : List String :=
  archive.filterMap fun e =>
    if tarRecords tempDir e then some (goJoin2 tempDir e.name) else none

theorem zipStep_records (tempDir binaryName : String) (st : ExtractSt) (e : ZipEntry)
    (h : zipRecords tempDir binaryName e) :
    (zipStep tempDir binaryName st e).binaryPath = goJoin2 tempDir e.name := by
  obtain ⟨hg, hd, hb⟩ := h
  unfold zipStep
  rw [if_neg (by rw [hg]; simp), if_neg (by rw [hd]; simp), if_pos hb]

theorem zipStep_not_records (tempDir binaryName : String) (st : ExtractSt) (e : ZipEntry)
    (h : ¬ zipRecords tempDir binaryName e) :
    (zipStep tempDir binaryName st e).binaryPath = st.binaryPath := by
  unfold zipStep
  by_cases hg : goHasPrefix (goJoin2 tempDir e.name) (goClean tempDir ++ "/") = false
  · rw [if_pos hg]
  · rw [if_neg hg]
    have hg' : goHasPrefix (goJoin2 tempDir e.name) (goClean tempDir ++ "/") = true := by
      revert hg
      cases goHasPrefix (goJoin2 tempDir e.name) (goClean tempDir ++ "/") <;> simp
    by_cases hd : e.isDir
    · rw [if_pos hd]
    · rw [if_neg hd]
      have hd' : e.isDir = false := by
        revert hd; cases e.isDir <;> simp
      by_cases hb : goBase (goJoin2 tempDir e.name) = binaryName
      · exact absurd ⟨hg', hd', hb⟩ h
      · rw [if_neg hb]

theorem tarStep_records (tempDir : String) (st : ExtractSt) (e : TarEntry)
    (h : tarRecords tempDir e) :
    (tarStep tempDir st e).binaryPath = goJoin2 tempDir e.name := by
  obtain ⟨hg, hd, hb⟩ := h
  unfold tarStep
  rw [if_neg (by rw [hg]; simp), hd]
  simp only []
  rw [if_pos hb]

theorem tarStep_not_records (tempDir : String) (st : ExtractSt) (e : TarEntry)
    (h : ¬ tarRecords tempDir e) :
    (tarStep tempDir st e).binaryPath = st.binaryPath := by
  unfold tarStep
  by_cases hg : goHasPrefix (goJoin2 tempDir e.name) (goClean tempDir ++ "/") = false
  · rw [if_pos hg]
  · rw [if_neg hg]
    have hg' : goHasPrefix (goJoin2 tempDir e.name) (goClean tempDir ++ "/") = true := by
      revert hg
      cases goHasPrefix (goJoin2 tempDir e.name) (goClean tempDir ++ "/") <;> simp
    match hty : e.typeflag with
    | TarType.dir => rfl
    | TarType.other => rfl
    | TarType.reg =>
      simp only []
      by_cases hb : goHasSuffix (goJoin2 tempDir e.name) "/bin/ollama" = true ∨
          goBase (goJoin2 tempDir e.name) = "ollama"
      · exact absurd ⟨hg', hty, hb⟩ h
      · rw [if_neg hb]

theorem getLastD_cons {α : Type} (a d : α) (l : List α) :
    ((a :: l).getLast?).getD d = (l.getLast?).getD a := by
  match l with
  | [] => rfl
  | b :: l' => rw [List.getLast?_cons_cons]; rfl

theorem zip_foldl_lastMatch (tempDir binaryName : String) (archive : List ZipEntry) :
    ∀ st : ExtractSt,
    (archive.foldl (zipStep tempDir binaryName) st).binaryPath =
      ((zipMatchedPaths tempDir binaryName archive).getLast?).getD st.binaryPath := by
  induction archive with
  | nil => intro st; rfl
  | cons e es ih =>
    intro st
    rw [List.foldl_cons, ih (zipStep tempDir binaryName st e)]
    unfold zipMatchedPaths
    rw [List.filterMap_cons]
    by_cases h : zipRecords tempDir binaryName e
    · rw [if_pos h]
      simp only []
      rw [getLastD_cons]
      rw [zipStep_records tempDir binaryName st e h]
    · rw [if_neg h]
      rw [zipStep_not_records tempDir binaryName st e h]

theorem tar_foldl_lastMatch (tempDir : String) (archive : List TarEntry) :
    ∀ st : ExtractSt,
    (archive.foldl (tarStep tempDir) st).binaryPath =
      ((tarMatchedPaths tempDir archive).getLast?).getD st.binaryPath := by
  induction archive with
  | nil => intro st; rfl
  | cons e es ih =>
    intro st
    rw [List.foldl_cons, ih (tarStep tempDir st e)]
    unfold tarMatchedPaths
    rw [List.filterMap_cons]
    by_cases h : tarRecords tempDir e
    · rw [if_pos h]
      simp only []
      rw [getLastD_cons]
      rw [tarStep_records tempDir st e h]
    · rw [if_neg h]
      rw [tarStep_not_records tempDir st e h]

/-! ## The platform resolver (`getPlatformConfig`, lines 308-340) -/

/-- Platform-specific configuration, as the `PlatformConfig` struct. -/
structure PlatformConfig where
  downloadURLTemplate : String
  tempFileName : String
  installPath : String
  binaryName : String
deriving DecidableEq, Repr

def windowsConfig : PlatformConfig :=
  { downloadURLTemplate :=
      "https://github.com/ollama/ollama/releases/download/%s/ollama-windows-amd64.zip",
    tempFileName := "ollama.zip",
    installPath := "~/AppData/Local/Programs/Ollama/ollama.exe",
    binaryName := "ollama.exe" }

def linuxConfig : PlatformConfig :=
  { downloadURLTemplate :=
      "https://github.com/ollama/ollama/releases/download/%s/ollama-linux-amd64.tgz",
    tempFileName := "ollama.tgz",
    installPath := "~/bin/ollama",
    binaryName := "ollama" }

def darwinConfig : PlatformConfig :=
  { downloadURLTemplate :=
      "https://github.com/ollama/ollama/releases/download/%s/ollama-darwin.zip",
    tempFileName := "ollama.zip",
    installPath := "~/bin/ollama",
    binaryName := "ollama" }

/-- `getPlatformConfig` dispatches on `runtime.GOOS`; any unrecognized
identifier takes the default branch, which returns the Linux
configuration. -/
def getPlatformConfig (goos : String) : PlatformConfig :=
  if goos = "windows" then windowsConfig
  else if goos = "linux" then linuxConfig
  else if goos = "darwin" then darwinConfig
  else linuxConfig

/-! ## The Unix PATH updater (lines 851-950)

The four candidate shell configuration files are modeled as optional
contents (`none` = file does not exist).  Reading and appending are
modeled as succeeding whenever attempted, as with the other filesystem
operations. -/

/-- Model filesystem: contents of the four candidate configuration files
in the user's home directory. -/
structure ShellFS where
  zshrc : Option String
  bashProfile : Option String
  bashrc : Option String
  profile : Option String
deriving DecidableEq, Repr

/-- The export line the updater looks for and appends. -/
def pathExport : String := "export PATH=\"$HOME/bin:$PATH\""

/-- Candidate configuration files, in the order of preference of
`updateUnixPath`. -/
def configFilesList : List String := [".zshrc", ".bash_profile", ".bashrc", ".profile"]

def getConfig (fs : ShellFS) (n : String) : Option String :=
  if n = ".zshrc" then fs.zshrc
  else if n = ".bash_profile" then fs.bashProfile
  else if n = ".bashrc" then fs.bashrc
  else if n = ".profile" then fs.profile
  else none

def setConfig (fs : ShellFS) (n : String) (c : Option String) : ShellFS :=
  if n = ".zshrc" then { fs with zshrc := c }
  else if n = ".bash_profile" then { fs with bashProfile := c }
  else if n = ".bashrc" then { fs with bashrc := c }
  else if n = ".profile" then { fs with profile := c }
  else fs

/-- `fileExists` (lines 921-924) on the model filesystem. -/
def fileExists (c : Option String) : Bool := c.isSome

/-- The lines a `bufio.Scanner` produces from a file's content: split at
newlines; a trailing newline does not produce a final empty line, and an
empty file has no lines. -/
def goLines (s : String) : List (List Char) :=
  if s.data = [] then []
  else if s.data.getLast? = some '\n' then (splitOnChar '\n' s.data).dropLast
  else splitOnChar '\n' s.data

/-- Go's `strings.Contains s sub`: substring search. -/
def goContains (s sub : List Char) : Bool :=
  match s with
  | [] => sub.isEmpty
  | _ :: rest => sub.isPrefixOf s || goContains rest sub

/-- `pathAlreadyExists` (lines 894-908): scan the file line by line and
report whether any line contains the export statement; a file that
cannot be opened reports `false`. -/
def pathAlreadyExists (content : Option String) (pe : String) : Bool :=
  match content with
  | none => false
  | some c => (goLines c).any fun ln => goContains ln pe.data

/-- `appendToFile` (lines 938-950): open in append-create mode and write
the content surrounded by newlines. -/
def appendToFile (content : Option String) (line : String) : Option String :=
  some ((content.getD "") ++ "\n" ++ line ++ "\n")

/-- The candidate loop of `updateUnixPath` (lines 866-878): skip
`.zshrc` when it does not exist, otherwise append to the first candidate
(appends succeed in the model). -/
def tryAppendLoop (fs : ShellFS) : List String → ShellFS × Bool
  | [] => (fs, false)
  | n :: rest =>
    if n = ".zshrc" ∧ fileExists (getConfig fs n) = false then tryAppendLoop fs rest
    else (setConfig fs n (appendToFile (getConfig fs n) pathExport), true)

/-- `updateUnixPath` (lines 851-881): a no-op success when any candidate
already contains the export line, otherwise append it to the first
usable candidate; `false` means every attempt failed (the wrapped
error return). -/
def updateUnixPath (fs : ShellFS) : ShellFS × Bool :=
  if configFilesList.any (fun n => pathAlreadyExists (getConfig fs n) pathExport) then
    (fs, true)
  else tryAppendLoop fs configFilesList

/-- Number of lines, across the four candidate files, containing the
export line. -/
def occurLines (c : Option String) : Nat :=
  match c with
  | none => 0
  | some s => (goLines s).countP fun ln => goContains ln pathExport.data

def occurCount (fs : ShellFS) : Nat :=
  occurLines fs.zshrc + occurLines fs.bashProfile + occurLines fs.bashrc +
    occurLines fs.profile

/-! ## The orchestrator (`installOllama`, `downloadFile`, `main`)

`installOllama` (lines 375-435) is a strict sequential pipeline.  Its
interaction with the outside world is abstracted into an environment
recording the outcome of each external effect: the HTTP status answered
to the archive download, the outcome of the extraction pass, and
whether the PATH update succeeded.  Filesystem operations (temp file
creation, directory creation, copy, chmod) are modeled as succeeding.
The two `defer`red cleanups always run on the exit paths reached after
their registration. -/

structure InstallEnv where
  goos : String
  downloadStatus : Nat
  extractOutcome : Except String String
  pathUpdateOk : Bool
deriving Repr

structure InstallResult where
  result : Except String Unit
  ranExtract : Bool
  tempFileRemoved : Bool
  tempDirRemoved : Bool
  warnings : List String
deriving Repr

/-- `downloadFile` (lines 450-499) fails on any non-200 HTTP status with
the wrapped status code. -/
def downloadFile (status : Nat) : Except String Unit :=
  if status ≠ 200 then Except.error ("download failed with status: " ++ toString status)
  else Except.ok ()

def installOllama (env : InstallEnv) : InstallResult :=
  match downloadFile env.downloadStatus with
  | Except.error msg =>
    { result := Except.error ("failed to download Ollama: " ++ msg),
      ranExtract := false,
      tempFileRemoved := true,
      tempDirRemoved := false,
      warnings := [] }
  | Except.ok _ =>
    match env.extractOutcome with
    | Except.error msg =>
      { result := Except.error ("failed to extract and install: extraction failed: " ++ msg),
        ranExtract := true,
        tempFileRemoved := true,
        tempDirRemoved := true,
        warnings := [] }
    | Except.ok _ =>
      if env.goos = "windows" then
        { result := Except.ok (),
          ranExtract := true,
          tempFileRemoved := true,
          tempDirRemoved := true,
          warnings := [] }
      else if env.pathUpdateOk then
        { result := Except.ok (),
          ranExtract := true,
          tempFileRemoved := true,
          tempDirRemoved := true,
          warnings := [] }
      else
        { result := Except.ok (),
          ranExtract := true,
          tempFileRemoved := true,
          tempDirRemoved := true,
          warnings := ["Warning: Failed to update PATH"] }

/-- The exit code of `main` (lines 962-981): 1 if fetching the version
or installing fails, 0 otherwise. -/
def mainExitCode (fetchOutcome : Except String String) (env : InstallEnv) : Nat :=
  match fetchOutcome with
  | Except.error _ => 1
  | Except.ok _ =>
    match (installOllama env).result with
    | Except.error _ => 1
    | Except.ok _ => 0

/-! ## Helper lemmas for the claim theorems -/

theorem mem_of_getLast?_eq {α : Type} {l : List α} {a : α}
    (h : l.getLast? = some a) : a ∈ l := by
  induction l with
  | nil => simp at h
  | cons b l' ih =>
    match l' with
    | [] =>
      simp only [List.getLast?_singleton, Option.some.injEq] at h
      simp [h]
    | c :: l'' =>
      rw [List.getLast?_cons_cons] at h
      exact List.mem_cons_of_mem _ (ih h)

theorem guard_target_ne_empty (q t : String)
    (h : goHasPrefix q (goClean t ++ "/") = true) : q ≠ "" := by
  unfold goHasPrefix at h
  rw [List.isPrefixOf_iff_prefix] at h
  intro hq
  rw [hq] at h
  rw [List.prefix_nil] at h
  rw [String.data_append] at h
  have := List.append_eq_nil.mp h
  simp [String.data] at this

theorem guard_eq_true_of_ne_false (q pre : String)
    (h : ¬ goHasPrefix q pre = false) : goHasPrefix q pre = true := by
  revert h
  cases goHasPrefix q pre <;> simp

theorem zipStep_skip (t bn : String) (e : ZipEntry)
    (h : goHasPrefix (goJoin2 t e.name) (goClean t ++ "/") = false) :
    ∀ st : ExtractSt, zipStep t bn st e = st := by
  intro st
  unfold zipStep
  rw [if_pos h]

theorem tarStep_skip (t : String) (e : TarEntry)
    (h : goHasPrefix (goJoin2 t e.name) (goClean t ++ "/") = false) :
    ∀ st : ExtractSt, tarStep t st e = st := by
  intro st
  unfold tarStep
  rw [if_pos h]

/-! ## Claim theorems -/

theorem strictlyInside_goJoin2 (t n : String) (ht : t.data ≠ []) :
    StrictlyInside t (goJoin2 t n) ↔ StrictlyInside t (rawDest t n) := by
  unfold StrictlyInside
  have hjoin : goJoin2 t n = goClean (rawDest t n) := by
    unfold goJoin2
    rw [if_neg ht]
  rw [hjoin, cleanParts_goClean]

/-- Claim C1: for every archive entry, in both the zip and the tar.gz
extraction routines, if the entry's computed destination path (the
target directory joined with the entry's stored relative path) resolves
outside the target directory, the extractor skips that entry without
writing anything outside the target directory and without aborting the
extraction pass.  Formally: an entry whose destination does not resolve
strictly inside the (nonempty) target directory contributes nothing to
the extraction — removing it from the archive leaves the entire result
(recorded binary, performed writes, and final outcome) unchanged, so in
particular nothing is written on its behalf and the rest of the pass
proceeds. -/
theorem c1_traversal_entry_skipped
    (t bn n : String) (d : Bool) (ty : TarType)
    (zpre zpost : List ZipEntry) (tpre tpost : List TarEntry)
    (ht : t.data ≠ [])
    (hout : ¬ StrictlyInside t (rawDest t n)) :
    extractZip (zpre ++ ZipEntry.mk n d :: zpost) t bn = extractZip (zpre ++ zpost) t bn ∧
    extractTarGz (tpre ++ TarEntry.mk n ty :: tpost) t = extractTarGz (tpre ++ tpost) t := by
  have hguard : goHasPrefix (goJoin2 t n) (goClean t ++ "/") = false := by
    by_contra hg
    exact hout ((strictlyInside_goJoin2 t n ht).mp
      (guard_strictlyInside t n ht (guard_eq_true_of_ne_false _ _ hg)))
  constructor
  · unfold extractZip
    rw [List.foldl_append, List.foldl_append, List.foldl_cons,
      zipStep_skip t bn (ZipEntry.mk n d) hguard]
  · unfold extractTarGz
    rw [List.foldl_append, List.foldl_append, List.foldl_cons,
      tarStep_skip t (TarEntry.mk n ty) hguard]

/-- Witness for C1 at a concrete traversal entry `../evil` under target
directory `/home/user/ollama-extract`. -/
theorem c1_traversal_entry_skipped_witness :
    ("/home/user/ollama-extract" : String).data ≠ [] ∧
    ¬ StrictlyInside "/home/user/ollama-extract"
      (rawDest "/home/user/ollama-extract" "../evil") ∧
    extractZip [ZipEntry.mk "../evil" false] "/home/user/ollama-extract" "ollama" =
      extractZip [] "/home/user/ollama-extract" "ollama" ∧
    extractTarGz [TarEntry.mk "../evil" TarType.reg] "/home/user/ollama-extract" =
      extractTarGz [] "/home/user/ollama-extract" := by
  have h := c1_traversal_entry_skipped "/home/user/ollama-extract" "ollama" "../evil"
    false TarType.reg [] [] [] [] (by decide) (by decide)
  exact ⟨by decide, by decide, h.1, h.2⟩

/-- Claim C9: whenever extraction (zip or tar.gz) returns a binary path
without error, that path lies strictly inside the target extraction
directory; entries rejected by the traversal guard are skipped before
the binary-matching check, so a path resolving outside the target
directory can never be the recorded and returned binary path. -/
theorem c9_returned_path_inside (t bn p : String)
    (zes : List ZipEntry) (tes : List TarEntry) (ht : t.data ≠ []) :
    ((extractZip zes t bn).2 = Except.ok p → StrictlyInside t p) ∧
    ((extractTarGz tes t).2 = Except.ok p → StrictlyInside t p) := by
  constructor
  · intro h
    have hbp : (zes.foldl (zipStep t bn) ⟨"", []⟩).binaryPath =
        ((zipMatchedPaths t bn zes).getLast?).getD "" :=
      zip_foldl_lastMatch t bn zes ⟨"", []⟩
    unfold extractZip at h
    simp only [] at h
    by_cases hz : (zes.foldl (zipStep t bn) ⟨"", []⟩).binaryPath = ""
    · rw [if_pos hz] at h
      exact absurd h (by simp)
    · rw [if_neg hz] at h
      have hp : (zes.foldl (zipStep t bn) ⟨"", []⟩).binaryPath = p := by
        injection h
      rw [hp] at hbp hz
      match hlast : (zipMatchedPaths t bn zes).getLast? with
      | none =>
        rw [hlast] at hbp
        simp only [Option.getD_none] at hbp
        exact absurd hbp hz
      | some q =>
        rw [hlast] at hbp
        simp only [Option.getD_some] at hbp
        have hmem : q ∈ zipMatchedPaths t bn zes := mem_of_getLast?_eq hlast
        unfold zipMatchedPaths at hmem
        obtain ⟨e, _, he⟩ := List.mem_filterMap.mp hmem
        by_cases hrec : zipRecords t bn e
        · rw [if_pos hrec] at he
          injection he with he'
          rw [hbp, ← he']
          exact guard_strictlyInside t e.name ht hrec.1
        · rw [if_neg hrec] at he
          exact absurd he (by simp)
  · intro h
    have hbp : (tes.foldl (tarStep t) ⟨"", []⟩).binaryPath =
        ((tarMatchedPaths t tes).getLast?).getD "" :=
      tar_foldl_lastMatch t tes ⟨"", []⟩
    unfold extractTarGz at h
    simp only [] at h
    by_cases hz : (tes.foldl (tarStep t) ⟨"", []⟩).binaryPath = ""
    · rw [if_pos hz] at h
      exact absurd h (by simp)
    · rw [if_neg hz] at h
      have hp : (tes.foldl (tarStep t) ⟨"", []⟩).binaryPath = p := by
        injection h
      rw [hp] at hbp hz
      match hlast : (tarMatchedPaths t tes).getLast? with
      | none =>
        rw [hlast] at hbp
        simp only [Option.getD_none] at hbp
        exact absurd hbp hz
      | some q =>
        rw [hlast] at hbp
        simp only [Option.getD_some] at hbp
        have hmem : q ∈ tarMatchedPaths t tes := mem_of_getLast?_eq hlast
        unfold tarMatchedPaths at hmem
        obtain ⟨e, _, he⟩ := List.mem_filterMap.mp hmem
        by_cases hrec : tarRecords t e
        · rw [if_pos hrec] at he
          injection he with he'
          rw [hbp, ← he']
          exact guard_strictlyInside t e.name ht hrec.1
        · rw [if_neg hrec] at he
          exact absurd he (by simp)

/-- Witness for C9 at a one-entry zip archive and a one-entry tar
archive, both containing the binary at `bin/ollama`. -/
theorem c9_returned_path_inside_witness :
    ("/home/user/ollama-extract" : String).data ≠ [] ∧
    (extractZip [ZipEntry.mk "bin/ollama" false] "/home/user/ollama-extract" "ollama").2 =
      Except.ok "/home/user/ollama-extract/bin/ollama" ∧
    (extractTarGz [TarEntry.mk "bin/ollama" TarType.reg] "/home/user/ollama-extract").2 =
      Except.ok "/home/user/ollama-extract/bin/ollama" ∧
    StrictlyInside "/home/user/ollama-extract" "/home/user/ollama-extract/bin/ollama" := by
  have h := c9_returned_path_inside "/home/user/ollama-extract" "ollama"
    "/home/user/ollama-extract/bin/ollama"
    [ZipEntry.mk "bin/ollama" false] [TarEntry.mk "bin/ollama" TarType.reg] (by decide)
  exact ⟨by decide, rfl, rfl, h.1 rfl⟩

/-- Counterexample to claim C2: an archive containing exactly one entry
whose base name equals the expected binary name, where that entry is a
directory.  The claim predicts successful extraction returning the
entry's path; the code skips directory entries before the binary check
and fails the whole extraction with the binary-not-found error. -/
theorem c2_single_matching_entry_counterexample :
    goBase (goJoin2 "/home/user/ollama-extract" "ollama") = "ollama" ∧
    (extractZip [ZipEntry.mk "ollama" true] "/home/user/ollama-extract" "ollama").2 =
      Except.error "binary ollama not found in zip archive" := by
  exact ⟨by decide, rfl⟩

/-- Claim C2 as amended: for every archive (in either supported format),
if exactly one entry satisfies the full binary-matching rule — its
destination passes the traversal guard, it is a non-directory (for
tar.gz: regular-file) entry, and its destination matches the name rule —
then extraction succeeds and returns that entry's materialized path; if
zero entries satisfy the rule, extraction fails with the binary-not-found
error after the full pass over all entries. -/
theorem c2_matching_extraction_amended (t bn p : String)
    (zes : List ZipEntry) (tes : List TarEntry) :
    (zipMatchedPaths t bn zes = [p] → (extractZip zes t bn).2 = Except.ok p) ∧
    (zipMatchedPaths t bn zes = [] →
      (extractZip zes t bn).2 =
        Except.error ("binary " ++ bn ++ " not found in zip archive")) ∧
    (tarMatchedPaths t tes = [p] → (extractTarGz tes t).2 = Except.ok p) ∧
    (tarMatchedPaths t tes = [] →
      (extractTarGz tes t).2 =
        Except.error "ollama binary not found in tar.gz archive") := by
  refine ⟨?_, ?_, ?_, ?_⟩
  · intro hone
    have hbp : (zes.foldl (zipStep t bn) ⟨"", []⟩).binaryPath =
        ((zipMatchedPaths t bn zes).getLast?).getD "" :=
      zip_foldl_lastMatch t bn zes ⟨"", []⟩
    rw [hone] at hbp
    simp only [List.getLast?_singleton, Option.getD_some] at hbp
    have hpne : p ≠ "" := by
      have hmem : p ∈ zipMatchedPaths t bn zes := by rw [hone]; simp
      unfold zipMatchedPaths at hmem
      obtain ⟨e, _, he⟩ := List.mem_filterMap.mp hmem
      by_cases hrec : zipRecords t bn e
      · rw [if_pos hrec] at he
        injection he with he'
        rw [← he']
        exact guard_target_ne_empty _ _ hrec.1
      · rw [if_neg hrec] at he
        exact absurd he (by simp)
    unfold extractZip
    simp only []
    rw [hbp, if_neg hpne]
  · intro hzero
    have hbp : (zes.foldl (zipStep t bn) ⟨"", []⟩).binaryPath =
        ((zipMatchedPaths t bn zes).getLast?).getD "" :=
      zip_foldl_lastMatch t bn zes ⟨"", []⟩
    rw [hzero] at hbp
    simp only [List.getLast?_nil, Option.getD_none] at hbp
    unfold extractZip
    simp only []
    rw [hbp, if_pos rfl]
  · intro hone
    have hbp : (tes.foldl (tarStep t) ⟨"", []⟩).binaryPath =
        ((tarMatchedPaths t tes).getLast?).getD "" :=
      tar_foldl_lastMatch t tes ⟨"", []⟩
    rw [hone] at hbp
    simp only [List.getLast?_singleton, Option.getD_some] at hbp
    have hpne : p ≠ "" := by
      have hmem : p ∈ tarMatchedPaths t tes := by rw [hone]; simp
      unfold tarMatchedPaths at hmem
      obtain ⟨e, _, he⟩ := List.mem_filterMap.mp hmem
      by_cases hrec : tarRecords t e
      · rw [if_pos hrec] at he
        injection he with he'
        rw [← he']
        exact guard_target_ne_empty _ _ hrec.1
      · rw [if_neg hrec] at he
        exact absurd he (by simp)
    unfold extractTarGz
    simp only []
    rw [hbp, if_neg hpne]
  · intro hzero
    have hbp : (tes.foldl (tarStep t) ⟨"", []⟩).binaryPath =
        ((tarMatchedPaths t tes).getLast?).getD "" :=
      tar_foldl_lastMatch t tes ⟨"", []⟩
    rw [hzero] at hbp
    simp only [List.getLast?_nil, Option.getD_none] at hbp
    unfold extractTarGz
    simp only []
    rw [hbp, if_pos rfl]

/-- Witness for the amended C2: concrete one-match and zero-match
archives in both formats. -/
theorem c2_matching_extraction_amended_witness :
    zipMatchedPaths "/home/user/ollama-extract" "ollama"
      [ZipEntry.mk "ollama" false, ZipEntry.mk "lib/extra" false] =
      ["/home/user/ollama-extract/ollama"] ∧
    (extractZip [ZipEntry.mk "ollama" false, ZipEntry.mk "lib/extra" false]
      "/home/user/ollama-extract" "ollama").2 =
      Except.ok "/home/user/ollama-extract/ollama" ∧
    tarMatchedPaths "/home/user/ollama-extract" [TarEntry.mk "lib/extra" TarType.reg] = [] ∧
    (extractTarGz [TarEntry.mk "lib/extra" TarType.reg] "/home/user/ollama-extract").2 =
      Except.error "ollama binary not found in tar.gz archive" := by
  have h := c2_matching_extraction_amended "/home/user/ollama-extract" "ollama"
    "/home/user/ollama-extract/ollama"
    [ZipEntry.mk "ollama" false, ZipEntry.mk "lib/extra" false]
    [TarEntry.mk "lib/extra" TarType.reg]
  refine ⟨by decide, h.1 (by decide), by decide, h.2.2.2 (by decide)⟩

/-- Claim C3: the extractor records as the binary the destination path
of an entry whose base name equals the expected binary name, and, for
the tar-based format only, also an entry whose path ends in the fixed
`bin/ollama` suffix: a regular-file tar entry passing the traversal
guard and satisfying either disjunct of the dual rule is recorded, and a
zip entry is recorded only under the base-name rule — any zip entry that
changes the recorded path has a destination whose base name equals the
expected binary name. -/
theorem c3_binary_matching_rule :
    (∀ (t : String) (st : ExtractSt) (e : TarEntry),
      goHasPrefix (goJoin2 t e.name) (goClean t ++ "/") = true →
      e.typeflag = TarType.reg →
      (goHasSuffix (goJoin2 t e.name) "/bin/ollama" = true ∨
        goBase (goJoin2 t e.name) = "ollama") →
      (tarStep t st e).binaryPath = goJoin2 t e.name) ∧
    (∀ (t bn : String) (st : ExtractSt) (e : ZipEntry),
      (zipStep t bn st e).binaryPath ≠ st.binaryPath →
      goBase (goJoin2 t e.name) = bn) := by
  constructor
  · intro t st e hg hty hmatch
    exact tarStep_records t st e ⟨hg, hty, hmatch⟩
  · intro t bn st e hchanged
    by_cases hrec : zipRecords t bn e
    · exact hrec.2.2
    · exact absurd (zipStep_not_records t bn st e hrec) hchanged

/-- Witness for C3: the tar entry `bin/ollama` (matching via the suffix
disjunct) is recorded, and a concrete zip entry that changes the
recorded path has a matching base name. -/
theorem c3_binary_matching_rule_witness :
    (tarStep "/home/user/ollama-extract" (ExtractSt.mk "" [])
      (TarEntry.mk "bin/ollama" TarType.reg)).binaryPath =
      goJoin2 "/home/user/ollama-extract" "bin/ollama" ∧
    goBase (goJoin2 "/home/user/ollama-extract" "ollama") = "ollama" := by
  constructor
  · exact c3_binary_matching_rule.1 "/home/user/ollama-extract" (ExtractSt.mk "" [])
      (TarEntry.mk "bin/ollama" TarType.reg) (by decide) rfl (by decide)
  · exact c3_binary_matching_rule.2 "/home/user/ollama-extract" "ollama"
      (ExtractSt.mk "" []) (ZipEntry.mk "ollama" false) (by decide)

/-- Claim C10: in both extraction routines, only non-directory entries
can be recorded as the binary (a directory entry whose base name equals
the expected binary name is never recorded; in the tar.gz routine only
regular-file entries are matched), and when multiple entries match the
binary-matching rule, the recorded path is that of the last matching
entry in archive iteration order. -/
theorem c10_nondir_last_match :
    (∀ (t bn : String) (st : ExtractSt) (e : ZipEntry), e.isDir = true →
      (zipStep t bn st e).binaryPath = st.binaryPath) ∧
    (∀ (t : String) (st : ExtractSt) (e : TarEntry), e.typeflag ≠ TarType.reg →
      (tarStep t st e).binaryPath = st.binaryPath) ∧
    (∀ (t bn : String) (zes : List ZipEntry),
      (extractZip zes t bn).1.binaryPath =
        ((zipMatchedPaths t bn zes).getLast?).getD "") ∧
    (∀ (t : String) (tes : List TarEntry),
      (extractTarGz tes t).1.binaryPath =
        ((tarMatchedPaths t tes).getLast?).getD "") := by
  refine ⟨?_, ?_, ?_, ?_⟩
  · intro t bn st e hdir
    unfold zipStep
    by_cases hg : goHasPrefix (goJoin2 t e.name) (goClean t ++ "/") = false
    · rw [if_pos hg]
    · rw [if_neg hg, if_pos hdir]
  · intro t st e hty
    unfold tarStep
    by_cases hg : goHasPrefix (goJoin2 t e.name) (goClean t ++ "/") = false
    · rw [if_pos hg]
    · rw [if_neg hg]
      match hfl : e.typeflag with
      | TarType.dir => rfl
      | TarType.other => rfl
      | TarType.reg => exact absurd hfl hty
  · intro t bn zes
    exact zip_foldl_lastMatch t bn zes ⟨"", []⟩
  · intro t tes
    exact tar_foldl_lastMatch t tes ⟨"", []⟩

/-- Witness for C10: a directory entry named like the binary is not
recorded, a non-regular tar entry is not recorded, and with two matching
entries the recorded path is the later one. -/
theorem c10_nondir_last_match_witness :
    (zipStep "/home/user/ollama-extract" "ollama" (ExtractSt.mk "" [])
      (ZipEntry.mk "ollama" true)).binaryPath = "" ∧
    (tarStep "/home/user/ollama-extract" (ExtractSt.mk "" [])
      (TarEntry.mk "ollama" TarType.other)).binaryPath = "" ∧
    (extractZip [ZipEntry.mk "ollama" false, ZipEntry.mk "sub/ollama" false]
      "/home/user/ollama-extract" "ollama").1.binaryPath =
      "/home/user/ollama-extract/sub/ollama" := by
  refine ⟨?_, ?_, ?_⟩
  · exact c10_nondir_last_match.1 "/home/user/ollama-extract" "ollama"
      (ExtractSt.mk "" []) (ZipEntry.mk "ollama" true) rfl
  · exact c10_nondir_last_match.2.1 "/home/user/ollama-extract"
      (ExtractSt.mk "" []) (TarEntry.mk "ollama" TarType.other) (by decide)
  · have h := c10_nondir_last_match.2.2.1 "/home/user/ollama-extract" "ollama"
      [ZipEntry.mk "ollama" false, ZipEntry.mk "sub/ollama" false]
    rw [h]
    decide

/-- Claim C4: the platform resolver is a pure total function that never
fails — for every host operating-system identifier it returns a
`PlatformConfig` (always one of the three named configurations); it
supports three recognized platforms (windows, linux, darwin), each with
a distinct combination of archive format (temp archive file name) and
install-path convention; and every unrecognized identifier yields the
default Unix-like (Linux) configuration. -/
theorem c4_platform_resolver_total_default :
    (∀ goos : String, getPlatformConfig goos = windowsConfig ∨
      getPlatformConfig goos = linuxConfig ∨ getPlatformConfig goos = darwinConfig) ∧
    getPlatformConfig "windows" = windowsConfig ∧
    getPlatformConfig "linux" = linuxConfig ∧
    getPlatformConfig "darwin" = darwinConfig ∧
    (windowsConfig.tempFileName, windowsConfig.installPath) ≠
      (linuxConfig.tempFileName, linuxConfig.installPath) ∧
    (windowsConfig.tempFileName, windowsConfig.installPath) ≠
      (darwinConfig.tempFileName, darwinConfig.installPath) ∧
    (linuxConfig.tempFileName, linuxConfig.installPath) ≠
      (darwinConfig.tempFileName, darwinConfig.installPath) ∧
    (∀ goos : String, goos ≠ "windows" → goos ≠ "linux" → goos ≠ "darwin" →
      getPlatformConfig goos = linuxConfig) := by
  refine ⟨?_, rfl, rfl, rfl, by decide, by decide, by decide, ?_⟩
  · intro goos
    unfold getPlatformConfig
    by_cases h1 : goos = "windows"
    · rw [if_pos h1]; exact Or.inl rfl
    · rw [if_neg h1]
      by_cases h2 : goos = "linux"
      · rw [if_pos h2]; exact Or.inr (Or.inl rfl)
      · rw [if_neg h2]
        by_cases h3 : goos = "darwin"
        · rw [if_pos h3]; exact Or.inr (Or.inr rfl)
        · rw [if_neg h3]; exact Or.inr (Or.inl rfl)
  · intro goos h1 h2 h3
    unfold getPlatformConfig
    rw [if_neg h1, if_neg h2, if_neg h3]

/-- Witness for C4 at the unrecognized identifier `freebsd`. -/
theorem c4_platform_resolver_total_default_witness :
    getPlatformConfig "freebsd" = linuxConfig ∧
    (getPlatformConfig "freebsd" = windowsConfig ∨
      getPlatformConfig "freebsd" = linuxConfig ∨
      getPlatformConfig "freebsd" = darwinConfig) := by
  exact ⟨c4_platform_resolver_total_default.2.2.2.2.2.2.2 "freebsd"
      (by decide) (by decide) (by decide),
    c4_platform_resolver_total_default.1 "freebsd"⟩

/-- Claim C5: for every supported platform identifier (windows, linux,
darwin, and any identifier taking the default fallback), the
`PlatformConfig` returned by the platform resolver is internally
consistent — its binary name equals the final path component (base) of
its install path. -/
theorem c5_config_consistency (goos : String) :
    goBase (getPlatformConfig goos).installPath = (getPlatformConfig goos).binaryName := by
  unfold getPlatformConfig
  by_cases h1 : goos = "windows"
  · rw [if_pos h1]; decide
  · rw [if_neg h1]
    by_cases h2 : goos = "linux"
    · rw [if_pos h2]; decide
    · rw [if_neg h2]
      by_cases h3 : goos = "darwin"
      · rw [if_pos h3]; decide
      · rw [if_neg h3]; decide

/-- Claim C6: if the download stage receives a non-success HTTP status
(for example 404), the downloader fails with a download error, the
orchestrator aborts the pipeline before the extraction stage runs, the
temporary archive file is removed on that exit path (its deferred
cleanup was registered before the download), and the process exits with
a non-zero status. -/
theorem c6_download_failure_aborts (env : InstallEnv) (v : String)
    (h : env.downloadStatus ≠ 200) :
    downloadFile env.downloadStatus =
      Except.error ("download failed with status: " ++ toString env.downloadStatus) ∧
    (installOllama env).result =
      Except.error ("failed to download Ollama: download failed with status: " ++
        toString env.downloadStatus) ∧
    (installOllama env).ranExtract = false ∧
    (installOllama env).tempFileRemoved = true ∧
    mainExitCode (Except.ok v) env = 1 := by
  have hd : downloadFile env.downloadStatus =
      Except.error ("download failed with status: " ++ toString env.downloadStatus) := by
    unfold downloadFile
    rw [if_pos h]
  have hio : installOllama env =
      { result := Except.error ("failed to download Ollama: download failed with status: " ++
          toString env.downloadStatus),
        ranExtract := false,
        tempFileRemoved := true,
        tempDirRemoved := false,
        warnings := [] } := by
    unfold installOllama
    rw [hd]
    rfl
  refine ⟨hd, by rw [hio], by rw [hio], by rw [hio], ?_⟩
  unfold mainExitCode
  rw [hio]

/-- Witness for C6 at HTTP status 404. -/
theorem c6_download_failure_aborts_witness :
    (installOllama (InstallEnv.mk "linux" 404 (Except.ok "p") true)).result =
      Except.error "failed to download Ollama: download failed with status: 404" ∧
    (installOllama (InstallEnv.mk "linux" 404 (Except.ok "p") true)).ranExtract = false ∧
    (installOllama (InstallEnv.mk "linux" 404 (Except.ok "p") true)).tempFileRemoved = true ∧
    mainExitCode (Except.ok "v") (InstallEnv.mk "linux" 404 (Except.ok "p") true) = 1 := by
  have h := c6_download_failure_aborts (InstallEnv.mk "linux" 404 (Except.ok "p") true)
    "v" (by decide)
  exact ⟨h.2.1, h.2.2.1, h.2.2.2.1, h.2.2.2.2⟩

/-- Claim C7: a failure of the PATH-update stage is caught by the
orchestrator, reported as a warning only, and does not change the
overall result — when the download and extraction stages succeed (the
filesystem copy and permission-set are modeled as succeeding) but the
PATH update fails on a non-Windows platform, `installOllama` still
returns success, emits the warning, and the process exit status stays
zero. -/
theorem c7_path_update_warning_only (env : InstallEnv) (v p : String)
    (h200 : env.downloadStatus = 200)
    (hex : env.extractOutcome = Except.ok p)
    (hgoos : env.goos ≠ "windows")
    (hpu : env.pathUpdateOk = false) :
    (installOllama env).result = Except.ok () ∧
    (installOllama env).warnings = ["Warning: Failed to update PATH"] ∧
    mainExitCode (Except.ok v) env = 0 := by
  have hd : downloadFile env.downloadStatus = Except.ok () := by
    unfold downloadFile
    rw [h200]
    rw [if_neg (by simp)]
  have hio : installOllama env =
      { result := Except.ok (),
        ranExtract := true,
        tempFileRemoved := true,
        tempDirRemoved := true,
        warnings := ["Warning: Failed to update PATH"] } := by
    unfold installOllama
    rw [hd, hex]
    simp only []
    rw [if_neg hgoos, hpu]
    rw [if_neg (by simp)]
  refine ⟨by rw [hio], by rw [hio], ?_⟩
  unfold mainExitCode
  rw [hio]

/-- Witness for C7: successful download and extraction with a failing
PATH update on linux. -/
theorem c7_path_update_warning_only_witness :
    (installOllama (InstallEnv.mk "linux" 200 (Except.ok "p") false)).result =
      Except.ok () ∧
    (installOllama (InstallEnv.mk "linux" 200 (Except.ok "p") false)).warnings =
      ["Warning: Failed to update PATH"] ∧
    mainExitCode (Except.ok "v") (InstallEnv.mk "linux" 200 (Except.ok "p") false) = 0 := by
  exact c7_path_update_warning_only (InstallEnv.mk "linux" 200 (Except.ok "p") false)
    "v" "p" rfl rfl (by decide) rfl

theorem goContains_self (l : List Char) : goContains l l = true := by
  match l with
  | [] => rfl
  | c :: r =>
    unfold goContains
    have hpre : (c :: r).isPrefixOf (c :: r) = true :=
      List.isPrefixOf_iff_prefix.mpr (List.prefix_refl _)
    rw [hpre]
    exact Bool.true_or _

theorem goLines_append_line (c : String) :
    goLines (c ++ "\n" ++ pathExport ++ "\n") =
      splitOnChar '\n' c.data ++ [pathExport.data] := by
  have hnl : ("\n" : String).data = ['\n'] := rfl
  have hdata : (c ++ "\n" ++ pathExport ++ "\n").data =
      c.data ++ '\n' :: (pathExport.data ++ ['\n']) := by
    rw [String.data_append, String.data_append, String.data_append, hnl]
    simp
  have hpefree : '\n' ∉ pathExport.data := by decide
  unfold goLines
  rw [if_neg (by rw [hdata]; simp)]
  rw [if_pos (by
    rw [hdata]
    rw [show c.data ++ '\n' :: (pathExport.data ++ ['\n']) =
      (c.data ++ '\n' :: pathExport.data) ++ ['\n'] by simp]
    exact List.getLast?_concat _)]
  rw [hdata, splitOnChar_append]
  rw [show (pathExport.data ++ ['\n']) = pathExport.data ++ '\n' :: [] from rfl]
  rw [splitOnChar_append, splitOnChar_sepFree '\n' pathExport.data hpefree]
  rw [show splitOnChar '\n' [] = [[]] from rfl]
  rw [show splitOnChar '\n' c.data ++ ([pathExport.data] ++ [[]]) =
    (splitOnChar '\n' c.data ++ [pathExport.data]) ++ [[]] by simp]
  rw [List.dropLast_concat]

theorem countP_goLines (c : String) (P : List Char → Bool) (hP : P [] = false) :
    (goLines c).countP P = (splitOnChar '\n' c.data).countP P := by
  unfold goLines
  by_cases h0 : c.data = []
  · rw [if_pos h0, h0]
    rw [show splitOnChar '\n' [] = [[]] from rfl]
    simp [List.countP_cons, hP]
  · rw [if_neg h0]
    by_cases h1 : c.data.getLast? = some '\n'
    · rw [if_pos h1]
      obtain ⟨l', hl'⟩ := splitOnChar_getLast_sep '\n' c.data h1
      rw [hl', List.dropLast_concat, List.countP_append]
      simp [List.countP_cons, hP]
    · rw [if_neg h1]

theorem occurLines_append (c : Option String) :
    occurLines (appendToFile c pathExport) = occurLines c + 1 := by
  have hPnil : goContains [] pathExport.data = false := by decide
  show (goLines ((c.getD "") ++ "\n" ++ pathExport ++ "\n")).countP
      (fun ln => goContains ln pathExport.data) = occurLines c + 1
  rw [goLines_append_line (c.getD "")]
  rw [List.countP_append]
  have h1 : List.countP (fun ln => goContains ln pathExport.data) [pathExport.data] = 1 := by
    simp [List.countP_cons, goContains_self]
  rw [h1]
  have h2 : (splitOnChar '\n' (c.getD "").data).countP
      (fun ln => goContains ln pathExport.data) = occurLines c := by
    match c with
    | none =>
      show (splitOnChar '\n' ("" : String).data).countP _ = 0
      rw [show ("" : String).data = [] from rfl]
      rw [show splitOnChar '\n' [] = [[]] from rfl]
      simp [List.countP_cons, hPnil]
    | some s =>
      exact (countP_goLines s _ hPnil).symm
  rw [h2]

theorem pathAlreadyExists_appended (c : Option String) :
    pathAlreadyExists (appendToFile c pathExport) pathExport = true := by
  show (goLines ((c.getD "") ++ "\n" ++ pathExport ++ "\n")).any
      (fun ln => goContains ln pathExport.data) = true
  rw [goLines_append_line (c.getD "")]
  rw [List.any_eq_true]
  exact ⟨pathExport.data, by simp, goContains_self _⟩

theorem pathAlreadyExists_zero (c : Option String) (h : occurLines c = 0) :
    pathAlreadyExists c pathExport = false := by
  match c with
  | none => rfl
  | some s =>
    have hall := List.countP_eq_zero.mp h
    show (goLines s).any (fun ln => goContains ln pathExport.data) = false
    cases hany : (goLines s).any (fun ln => goContains ln pathExport.data) with
    | false => rfl
    | true =>
      obtain ⟨x, hx, hpx⟩ := List.any_eq_true.mp hany
      exact absurd hpx (hall x hx)

theorem update_noop_of_any (fs : ShellFS)
    (h : (configFilesList.any fun n => pathAlreadyExists (getConfig fs n) pathExport) = true) :
    updateUnixPath fs = (fs, true) := by
  unfold updateUnixPath
  rw [if_pos h]

/-- Claim C8: the Unix PATH updater is idempotent — starting from a
configuration state containing no occurrence of the export line, one run
succeeds and leaves exactly one line containing the export line across
the candidate configuration files, and a second run is a no-op returning
success on the very same state; moreover if a candidate configuration
file already contains the export line verbatim, the updater returns
success without modifying any file's content. -/
theorem c8_path_updater_idempotent :
    (∀ fs : ShellFS, occurCount fs = 0 →
      (updateUnixPath fs).2 = true ∧
      occurCount (updateUnixPath fs).1 = 1 ∧
      updateUnixPath (updateUnixPath fs).1 = ((updateUnixPath fs).1, true)) ∧
    (∀ (fs : ShellFS) (n : String) (c : String), n ∈ configFilesList →
      getConfig fs n = some c → pathExport.data ∈ goLines c →
      updateUnixPath fs = (fs, true)) := by
  constructor
  · intro fs h0
    obtain ⟨z, bp, rc, pf⟩ := fs
    have hsum : occurLines z + occurLines bp + occurLines rc + occurLines pf = 0 := h0
    have h1 : occurLines z = 0 := by omega
    have h2 : occurLines bp = 0 := by omega
    have h3 : occurLines rc = 0 := by omega
    have h4 : occurLines pf = 0 := by omega
    have hz := pathAlreadyExists_zero z h1
    have hbp := pathAlreadyExists_zero bp h2
    have hrc := pathAlreadyExists_zero rc h3
    have hpf := pathAlreadyExists_zero pf h4
    have hany : (configFilesList.any fun n =>
        pathAlreadyExists (getConfig (ShellFS.mk z bp rc pf) n) pathExport) = false := by
      show (pathAlreadyExists z pathExport ||
        (pathAlreadyExists bp pathExport ||
          (pathAlreadyExists rc pathExport ||
            (pathAlreadyExists pf pathExport || false)))) = false
      rw [hz, hbp, hrc, hpf]
      rfl
    have hup : updateUnixPath (ShellFS.mk z bp rc pf) =
        tryAppendLoop (ShellFS.mk z bp rc pf) configFilesList := by
      unfold updateUnixPath
      rw [if_neg (by rw [hany]; simp)]
    match z, h1, hz with
    | some zc, h1, hz =>
      have hloop : tryAppendLoop (ShellFS.mk (some zc) bp rc pf) configFilesList =
          (ShellFS.mk (appendToFile (some zc) pathExport) bp rc pf, true) := rfl
      rw [hup, hloop]
      refine ⟨rfl, ?_, ?_⟩
      · show occurLines (appendToFile (some zc) pathExport) + occurLines bp +
          occurLines rc + occurLines pf = 1
        rw [occurLines_append (some zc), h1, h2, h3, h4]
      · refine update_noop_of_any _ ?_
        have hfirst : pathAlreadyExists
            (getConfig (ShellFS.mk (appendToFile (some zc) pathExport) bp rc pf) ".zshrc")
            pathExport = true :=
          pathAlreadyExists_appended (some zc)
        rw [show configFilesList =
          ".zshrc" :: [".bash_profile", ".bashrc", ".profile"] from rfl]
        rw [List.any_cons, hfirst]
        rfl
    | none, h1, hz =>
      have hloop : tryAppendLoop (ShellFS.mk none bp rc pf) configFilesList =
          (ShellFS.mk none (appendToFile bp pathExport) rc pf, true) := rfl
      rw [hup, hloop]
      refine ⟨rfl, ?_, ?_⟩
      · show occurLines none + occurLines (appendToFile bp pathExport) +
          occurLines rc + occurLines pf = 1
        rw [occurLines_append bp, h2, h3, h4]
        rfl
      · refine update_noop_of_any _ ?_
        have hfirst : pathAlreadyExists
            (getConfig (ShellFS.mk none (appendToFile bp pathExport) rc pf) ".zshrc")
            pathExport = false := rfl
        have hsecond : pathAlreadyExists
            (getConfig (ShellFS.mk none (appendToFile bp pathExport) rc pf) ".bash_profile")
            pathExport = true :=
          pathAlreadyExists_appended bp
        rw [show configFilesList =
          ".zshrc" :: ".bash_profile" :: [".bashrc", ".profile"] from rfl]
        rw [List.any_cons, List.any_cons, hfirst, hsecond]
        rfl
  · intro fs n c hn hc hline
    refine update_noop_of_any fs ?_
    refine List.any_eq_true.mpr ⟨n, hn, ?_⟩
    rw [hc]
    show (goLines c).any (fun ln => goContains ln pathExport.data) = true
    exact List.any_eq_true.mpr ⟨pathExport.data, hline, goContains_self _⟩

/-- Witness for C8: a clean state (no file contains the export line) run
twice, and a state whose `.zshrc` already holds the export line
verbatim. -/
theorem c8_path_updater_idempotent_witness :
    occurCount (ShellFS.mk (some "# hello") none none (some "alias ll")) = 0 ∧
    (updateUnixPath (ShellFS.mk (some "# hello") none none (some "alias ll"))).2 = true ∧
    occurCount (updateUnixPath
      (ShellFS.mk (some "# hello") none none (some "alias ll"))).1 = 1 ∧
    updateUnixPath (updateUnixPath
        (ShellFS.mk (some "# hello") none none (some "alias ll"))).1 =
      ((updateUnixPath (ShellFS.mk (some "# hello") none none (some "alias ll"))).1, true) ∧
    updateUnixPath (ShellFS.mk
        (some ("\n" ++ pathExport ++ "\n")) none none none) =
      (ShellFS.mk (some ("\n" ++ pathExport ++ "\n")) none none none, true) := by
  have ha := c8_path_updater_idempotent.1
    (ShellFS.mk (some "# hello") none none (some "alias ll")) (by decide)
  have hb := c8_path_updater_idempotent.2
    (ShellFS.mk (some ("\n" ++ pathExport ++ "\n")) none none none)
    ".zshrc" ("\n" ++ pathExport ++ "\n") (by decide) rfl (by decide)
  exact ⟨by decide, ha.1, ha.2.1, ha.2.2, hb⟩
